import Mathlib

/-!
Verification of the source-partitioning engine of `split-gas-file.py`.

The script classifies the top-level declarations of a monolithic `.gs`
source into an ordered catalog of categories (`MODULES`), extracting each
function declaration as a brace-balanced block of lines
(`extract_function_with_body`), and then derives a coverage report that
partitions the remaining lines into "header" and "unmatched".

Python strings are modelled as Lean `String`, with the character-level
operations (`strip`, `startswith`, `count`, membership) expressed over
`String.data` so that everything evaluates by kernel reduction.
Regular-expression rules are modelled as abstract line predicates
`String → Bool`; no claim depends on the regex language itself, only on
which lines a rule accepts.
-/

namespace SplitGas

/-- Python `s.strip()` on the character list of a string: drop whitespace
from both ends. -/
def stripChars (s : String) : List Char :=
  ((s.data.dropWhile Char.isWhitespace).reverse.dropWhile Char.isWhitespace).reverse

/-- Python `cs.startswith(pre)` where `cs` is an already-stripped character
list and `pre` a string literal. -/
def chStarts (cs : List Char) (pre : String) : Bool :=
  pre.data.isPrefixOf cs

/-- Python `line.count(c)`. -/
def countChar (c : Char) (s : String) : Nat :=
  s.data.count c

/-- Python `'\x7b' in line`. -/
def hasOpenBrace (s : String) : Bool :=
  s.data.contains '\x7b'

/-- Net brace-depth contribution of one line:
`line.count('\x7b') - line.count('\x7d')`. -/
def lineDelta (s : String) : Int :=
  (countChar '\x7b' s : Int) - (countChar '\x7d' s : Int)

/-- Python `line.strip().startswith('function ')`. -/
def isFuncLine (s : String) : Bool :=
  chStarts (stripChars s) "function "

/-- Python `line.strip().startswith('var ')`. -/
def isVarLine (s : String) : Bool :=
  chStarts (stripChars s) "var "

/-- Net brace depth accumulated over a list of lines. -/
def blockDepth (ls : List String) : Int :=
  (ls.map lineDelta).sum

/-- Whether some line of the list contains an opening brace (the `in_function`
flag of the extractor after the list has been processed). -/
def blockOpened (ls : List String) : Bool :=
  ls.any hasOpenBrace

/-- Loop body of `extract_function_with_body`, over the lines from the start
index on.  Carries the running `brace_count` (`depth`) and `in_function`
(`opened`) state.  Returns the accumulated lines and `some n` (`n` lines
consumed) when the balance condition fired, or `none` when end of input was
reached first. -/
def extractAux : List String → Int → Bool → List String × Option Nat
  | [], _, _ => ([], none)
  | line :: rest, depth, opened =>
    let depth2 := depth + lineDelta line
    let opened2 := opened || hasOpenBrace line
    if opened2 && depth2 == 0 then
      ([line], some 1)
    else
      match extractAux rest depth2 opened2 with
      | (r, some n) => (line :: r, some (n + 1))
      | (r, none) => (line :: r, none)

/-- Model of `extract_function_with_body(lines, start_idx)`: walk the lines
from `start` accumulating them, tracking brace depth and the `in_function`
flag; stop one past the first line at which `in_function` holds and the
depth is back to `0`, and otherwise run to end of input, returning
`len(lines)` as the end index. -/
def extract_function_with_body (lines : List String) (start : Nat) :
    List String × Nat :=
  match extractAux (lines.drop start) 0 false with
  | (r, some n) => (r, start + n)
  | (r, none) => (r, lines.length)

/-- Stopping condition of the extractor after the first `k+1` lines of the
suffix beginning at the start index, with initial state `(d, o)`. -/
def stopState (d : Int) (o : Bool) (rem : List String) (k : Nat) : Prop :=
  (o || blockOpened (rem.take (k + 1))) = true ∧ d + blockDepth (rem.take (k + 1)) = 0

instance (d : Int) (o : Bool) (rem : List String) (k : Nat) :
    Decidable (stopState d o rem k) := by
  unfold stopState; infer_instance

/-- Stopping condition of the extractor from a fresh state: the first `k+1`
lines of the suffix contain an opening brace and their net brace depth
is zero. -/
def stopsAt (rem : List String) (k : Nat) : Prop :=
  stopState 0 false rem k

instance (rem : List String) (k : Nat) : Decidable (stopsAt rem k) := by
  unfold stopsAt; infer_instance

theorem blockDepth_cons (l : String) (ls : List String) :
    blockDepth (l :: ls) = lineDelta l + blockDepth ls := by
  simp [blockDepth]

theorem blockOpened_cons (l : String) (ls : List String) :
    blockOpened (l :: ls) = (hasOpenBrace l || blockOpened ls) := by
  simp [blockOpened]

/-- Characterization of the extractor loop: either it stops at the least
index satisfying the stopping condition, or no index satisfies it and the
whole suffix is returned with `none`. -/
theorem extractAux_char (rem : List String) (d : Int) (o : Bool) :
    (∃ k, k < rem.length ∧ stopState d o rem k ∧ (∀ j < k, ¬ stopState d o rem j) ∧
      extractAux rem d o = (rem.take (k + 1), some (k + 1)))
    ∨ ((∀ k < rem.length, ¬ stopState d o rem k) ∧ extractAux rem d o = (rem, none)) := by
  induction rem generalizing d o with
  | nil =>
    right
    refine ⟨fun k hk => absurd hk (by simp), ?_⟩
    simp [extractAux]
  | cons line rest ih =>
    have htake1 : List.take (0 + 1) (line :: rest) = [line] := rfl
    have hzero : stopState d o (line :: rest) 0 ↔
        ((o || hasOpenBrace line) = true ∧ d + lineDelta line = 0) := by
      unfold stopState
      rw [htake1, blockOpened_cons, blockDepth_cons]
      simp [blockOpened, blockDepth]
    by_cases h0 : stopState d o (line :: rest) 0
    · left
      refine ⟨0, by simp, h0, fun j hj => absurd hj (by omega), ?_⟩
      have hcond : ((o || hasOpenBrace line) && (d + lineDelta line == 0)) = true := by
        rcases hzero.mp h0 with ⟨ho, hd⟩
        simp [ho, hd]
      simp [extractAux, hcond, htake1]
    · have hcond : ((o || hasOpenBrace line) && (d + lineDelta line == 0)) = false := by
        cases hb : ((o || hasOpenBrace line) && (d + lineDelta line == 0)) with
        | false => rfl
        | true =>
          exfalso
          rw [Bool.and_eq_true, beq_iff_eq] at hb
          exact h0 (hzero.mpr hb)
      have hshift : ∀ k, stopState (d + lineDelta line) (o || hasOpenBrace line) rest k ↔
          stopState d o (line :: rest) (k + 1) := by
        intro k
        have ht : List.take (k + 1 + 1) (line :: rest) = line :: List.take (k + 1) rest := rfl
        unfold stopState
        rw [ht, blockOpened_cons, blockDepth_cons, ← Bool.or_assoc, ← add_assoc]
      rcases ih (d + lineDelta line) (o || hasOpenBrace line) with
        ⟨k, hk, hstop, hleast, heq⟩ | ⟨hnone, heq⟩
      · left
        refine ⟨k + 1, by simpa using Nat.succ_lt_succ hk, (hshift k).mp hstop, ?_, ?_⟩
        · intro j hj
          match j with
          | 0 => exact h0
          | j' + 1 =>
            rw [← hshift j']
            exact hleast j' (by omega)
        · simp only [extractAux, hcond]
          simp only [Bool.false_eq_true, if_false]
          rw [heq]
          rfl
      · right
        refine ⟨?_, ?_⟩
        · intro k hk
          match k with
          | 0 => exact h0
          | k' + 1 =>
            rw [← hshift k']
            exact hnone k' (by simpa using Nat.lt_of_succ_lt_succ hk)
        · simp only [extractAux, hcond]
          simp only [Bool.false_eq_true, if_false]
          rw [heq]

/-- Characterization of `extract_function_with_body`: the extractor returns
the shortest prefix of the suffix starting at `start` whose last line makes
"opened and depth = 0" hold, with end index one past that line; if no prefix
ever satisfies the condition it returns the whole suffix with end index
`lines.length`. -/
def extractChar (lines : List String) (start : Nat) : Prop :=
  (∃ k, k < (lines.drop start).length ∧ stopsAt (lines.drop start) k ∧
      (∀ j < k, ¬ stopsAt (lines.drop start) j) ∧
      extract_function_with_body lines start =
        ((lines.drop start).take (k + 1), start + (k + 1)))
  ∨ ((∀ k < (lines.drop start).length, ¬ stopsAt (lines.drop start) k) ∧
      extract_function_with_body lines start = (lines.drop start, lines.length))

theorem extract_char (lines : List String) (start : Nat) : extractChar lines start := by
  unfold extractChar
  rcases extractAux_char (lines.drop start) 0 false with ⟨k, hk, hs, hl, he⟩ | ⟨hn, he⟩
  · left
    refine ⟨k, hk, hs, hl, ?_⟩
    unfold extract_function_with_body
    rw [he]
  · right
    refine ⟨fun k hk => hn k hk, ?_⟩
    unfold extract_function_with_body
    rw [he]

theorem extract_end_bounds (lines : List String) (start : Nat) (h : start < lines.length) :
    start < (extract_function_with_body lines start).2 ∧
      (extract_function_with_body lines start).2 ≤ lines.length := by
  rcases extract_char lines start with ⟨k, hk, _, _, he⟩ | ⟨_, he⟩
  · rw [he]
    rw [List.length_drop] at hk
    exact ⟨by omega, by simp; omega⟩
  · rw [he]
    exact ⟨by simpa using h, le_refl _⟩

/-- What claim C2 asserts of the extractor at a given input: the general
stop-at-first-balanced-line characterization, plus the one-line edge case
(a signature line containing an opening brace with equally many opening and
closing braces yields a one-line unit with end index `start + 1`). -/
def extractClaim (lines : List String) (start : Nat) : Prop :=
  extractChar lines start ∧
  ((hasOpenBrace (lines.getD start "") = true ∧
      countChar '\x7b' (lines.getD start "") = countChar '\x7d' (lines.getD start "")) →
    extract_function_with_body lines start = ([lines.getD start ""], start + 1))

theorem extract_one_line (lines : List String) (start : Nat) (h : start < lines.length)
    (hb : hasOpenBrace (lines.getD start "") = true)
    (hc : countChar '\x7b' (lines.getD start "") = countChar '\x7d' (lines.getD start "")) :
    extract_function_with_body lines start = ([lines.getD start ""], start + 1) := by
  have hd : lines.drop start = lines.getD start "" :: lines.drop (start + 1) := by
    rw [List.getD_eq_getElem lines "" h]
    exact List.drop_eq_getElem_cons h
  have hstop0 : stopsAt (lines.drop start) 0 := by
    unfold stopsAt stopState
    rw [hd]
    have ht : List.take (0 + 1) (lines.getD start "" :: lines.drop (start + 1)) =
        [lines.getD start ""] := rfl
    rw [ht]
    constructor
    · simpa [blockOpened] using hb
    · simp only [blockDepth, List.map_cons, List.map_nil, List.sum_cons, List.sum_nil,
        add_zero, zero_add, lineDelta]
      omega
  rcases extract_char lines start with ⟨k, hk, _, hleast, he⟩ | ⟨hn, _⟩
  · have hk0 : k = 0 := by
      by_contra hne
      exact hleast 0 (by omega) hstop0
    subst hk0
    rw [he, hd]
    rfl
  · exfalso
    refine hn 0 ?_ hstop0
    rw [hd]
    simp

/-- One entry of the `MODULES` catalog: a name, a description and an ordered
list of line-matching rules.  A rule abstracts `re.search(pattern, line)`
(the patterns of the script are all anchored with `^`) as a Boolean
predicate on the line. -/
structure Category where
  name : String
  description : String
  patterns : List (String → Bool)

/-- Record of one extracted declaration: owning category index (position in
the catalog), the half-open line-index range it occupies, the lines captured,
and whether it was a function-shaped extraction (as opposed to a single-line
`var` capture).  The script itself only accumulates content and the
`assigned_lines` set; these records are bookkeeping proven below to agree
with both. -/
structure ExtractedUnit where
  cat : Nat
  start : Nat
  stop : Nat
  ulines : List String
  isFunc : Bool
deriving DecidableEq

/-- Python `range(a, b)` as a list. -/
def rangeFromTo (a b : Nat) : List Nat :=
  (List.range (b - a)).map (a + ·)

/-- The half-open index range `[u.start, u.stop)` of a unit, as the list of
indices the scanner adds to `assigned_lines` for it. -/
def unitRange (u : ExtractedUnit) : List Nat :=
  rangeFromTo u.start u.stop

/-- Inner pattern loop of the scan for one category: a pattern that matches
is acted upon only when the line is function- or `var`-shaped; otherwise the
loop moves on to the next pattern. -/
def categoryTakes (patterns : List (String → Bool)) (line : String) : Bool :=
  match patterns with
  | [] => false
  | p :: rest =>
    if p line then
      if isFuncLine line then true
      else if isVarLine line then true
      else categoryTakes rest line
    else categoryTakes rest line

/-- Outer category loop of the scan: the index of the first category whose
pattern loop takes the line, if any. -/
def findCategoryAux (cats : List Category) (line : String) (j : Nat) : Option Nat :=
  match cats with
  | [] => none
  | c :: rest =>
    if categoryTakes c.patterns line then some j
    else findCategoryAux rest line (j + 1)

/-- Index of the first category of the catalog that takes the line. -/
def findCategory (cats : List Category) (line : String) : Option Nat :=
  findCategoryAux cats line 0

/-- Python `MODULES[name]['content'].extend(add)`: extend the accumulated
content of category `j` in place. -/
def setContent (contents : List (List String)) (j : Nat) (add : List String) :
    List (List String) :=
  contents.set j (contents.getD j [] ++ add)

/-- Pass 1 of `main`: the `while i < len(lines)` loop.  Each iteration
advances the cursor by at least one, so `lines.length` iterations always
suffice; `fuel` makes that recursion structural.  `contents` models the
per-category `content` lists of `MODULES`, `assigned` the `assigned_lines`
set (kept as the list of indices in insertion order), and `units` the
bookkeeping record of extracted units. -/
def scanLoop (catalog : List Category) (lines : List String) :
    Nat → Nat → List (List String) → List Nat → List ExtractedUnit →
    List (List String) × List Nat × List ExtractedUnit
  | 0, _, contents, assigned, units => (contents, assigned, units)
  | fuel + 1, i, contents, assigned, units =>
    if i < lines.length then
      let line := lines.getD i ""
      match findCategory catalog line with
      | some j =>
        if isFuncLine line then
          let r := extract_function_with_body lines i
          scanLoop catalog lines fuel r.2 (setContent contents j (r.1 ++ ["\n"]))
            (assigned ++ rangeFromTo i r.2) (units ++ [⟨j, i, r.2, r.1, true⟩])
        else
          scanLoop catalog lines fuel (i + 1) (setContent contents j [line])
            (assigned ++ [i]) (units ++ [⟨j, i, i + 1, [line], false⟩])
      | none => scanLoop catalog lines fuel (i + 1) contents assigned units
    else (contents, assigned, units)

/-- The sequence of units the scan produces from cursor `i` with the given
fuel; it mirrors `scanLoop` exactly but carries no accumulators, so it is
manifestly independent of the accumulator state. -/
def scanTrace (catalog : List Category) (lines : List String) :
    Nat → Nat → List ExtractedUnit
  | 0, _ => []
  | fuel + 1, i =>
    if i < lines.length then
      let line := lines.getD i ""
      match findCategory catalog line with
      | some j =>
        if isFuncLine line then
          let r := extract_function_with_body lines i
          ⟨j, i, r.2, r.1, true⟩ :: scanTrace catalog lines fuel r.2
        else
          ⟨j, i, i + 1, [line], false⟩ :: scanTrace catalog lines fuel (i + 1)
      | none => scanTrace catalog lines fuel (i + 1)
    else []

/-- Result of one Pass-1 invocation. -/
structure ScanResult where
  contents : List (List String)
  assigned : List Nat
  units : List ExtractedUnit
deriving DecidableEq

/-- Run Pass 1 from the start of the input with the given initial
per-category accumulated contents (the state of `MODULES` at entry). -/
def runScan (catalog : List Category) (lines : List String)
    (init : List (List String)) : ScanResult :=
  let r := scanLoop catalog lines lines.length 0 init [] []
  ⟨r.1, r.2.1, r.2.2⟩

/-- The empty per-category accumulators a fresh process starts from
(each catalog entry with `content = []`). -/
def freshContents (catalog : List Category) : List (List String) :=
  catalog.map fun _ => ([] : List String)

/-- Pass 1 as executed by a fresh process run of the script. -/
def mainScan (catalog : List Category) (lines : List String) : ScanResult :=
  runScan catalog lines (freshContents catalog)

/-- Python `line.strip()` is truthy: the stripped text is nonempty. -/
def stripNonempty (s : String) : Bool :=
  !(stripChars s).isEmpty

/-- Condition under which a header-phase line is actually appended to
`header`: nonempty after stripping and not a comment-start line. -/
def headerKeep (s : String) : Bool :=
  stripNonempty s && !chStarts (stripChars s) "/*" && !chStarts (stripChars s) "*"

/-- Pass 2 of `main`: the `for i, line in enumerate(lines)` loop that
partitions unconsumed lines into `header` and `unmatched`.  Header entries
carry their 0-based index as a ghost annotation (the script stores only the
text; project with `Prod.snd` to recover its list); unmatched entries are
the script's `(i + 1, line)` pairs. -/
def coverageLoop (assigned : List Nat) :
    List String → Nat → Bool → List (Nat × String) → List (Nat × String) →
    List (Nat × String) × List (Nat × String)
  | [], _, _, header, unmatched => (header, unmatched)
  | line :: rest, i, inHeader, header, unmatched =>
    if assigned.contains i then
      coverageLoop assigned rest (i + 1) false header unmatched
    else if inHeader && !isFuncLine line then
      if headerKeep line then
        coverageLoop assigned rest (i + 1) inHeader (header ++ [(i, line)]) unmatched
      else
        coverageLoop assigned rest (i + 1) inHeader header unmatched
    else if !inHeader then
      if stripNonempty line then
        coverageLoop assigned rest (i + 1) inHeader header (unmatched ++ [(i + 1, line)])
      else
        coverageLoop assigned rest (i + 1) inHeader header unmatched
    else
      coverageLoop assigned rest (i + 1) inHeader header unmatched

/-- Pass 2 as executed by `main`: walk all lines from index 0 with
`in_header = True` and empty accumulators. -/
def mainCoverage (lines : List String) (assigned : List Nat) :
    List (Nat × String) × List (Nat × String) :=
  coverageLoop assigned lines 0 true [] []

/-- Size of the Python set `assigned_lines` given our insertion-order list
model of it. -/
def consumedCount (assigned : List Nat) : Nat :=
  assigned.dedup.length

/-- The summary counters the script prints at the end of a run, together
with the two diagnostic partitions. -/
structure CoverageReport where
  header : List (Nat × String)
  unmatched : List (Nat × String)
  total : Nat
  assignedCount : Nat
  unassignedCount : Nat
deriving DecidableEq

/-- The coverage report of one full run of `main` on the given input. -/
def mainReport (catalog : List Category) (lines : List String) : CoverageReport :=
  let s := mainScan catalog lines
  let c := mainCoverage lines s.assigned
  ⟨c.1, c.2, lines.length, consumedCount s.assigned,
    lines.length - consumedCount s.assigned⟩

/-- Default category used with `List.getD` when indexing the catalog. -/
def dfltCat : Category := ⟨"", "", []⟩

/-- Whether any rule of the category matches the line (the spec's
"any rule matches", independent of the line's shape). -/
def catRuleMatches (c : Category) (line : String) : Bool :=
  c.patterns.any fun p => p line

theorem categoryTakes_shaped (ps : List (String → Bool)) (line : String)
    (h : (isFuncLine line || isVarLine line) = true) :
    categoryTakes ps line = ps.any fun p => p line := by
  induction ps with
  | nil => rfl
  | cons p rest ih =>
    rw [Bool.or_eq_true] at h
    by_cases hp : p line
    · rcases h with hf | hv
      · simp [categoryTakes, hp, hf]
      · by_cases hf : isFuncLine line
        · simp [categoryTakes, hp, hf]
        · simp [categoryTakes, hp, hf, hv]
    · simp only [categoryTakes, hp]
      simp [ih, hp]

theorem categoryTakes_shape (ps : List (String → Bool)) (line : String)
    (h : categoryTakes ps line = true) :
    (isFuncLine line || isVarLine line) = true := by
  induction ps with
  | nil => simp [categoryTakes] at h
  | cons p rest ih =>
    by_cases hp : p line
    · by_cases hf : isFuncLine line
      · simp [hf]
      · by_cases hv : isVarLine line
        · simp [hv]
        · simp only [categoryTakes, hp, if_pos, hf, hv] at h
          simp only [if_false, Bool.false_eq_true] at h
          exact ih (by simpa [hf, hv] using h)
    · simp only [categoryTakes, hp] at h
      exact ih (by simpa [hp] using h)

theorem findCategoryAux_none_iff (line : String) :
    ∀ (cats : List Category) (n : Nat),
      findCategoryAux cats line n = none ↔
        ∀ c ∈ cats, categoryTakes c.patterns line = false := by
  intro cats
  induction cats with
  | nil => intro n; simp [findCategoryAux]
  | cons c rest ih =>
    intro n
    by_cases hc : categoryTakes c.patterns line
    · simp [findCategoryAux, hc]
    · simp only [findCategoryAux, hc, if_neg, Bool.false_eq_true, if_false]
      rw [ih (n + 1)]
      constructor
      · intro hall d hd
        rcases List.mem_cons.mp hd with rfl | hd'
        · exact Bool.eq_false_iff.mpr hc
        · exact hall d hd'
      · intro hall d hd
        exact hall d (List.mem_cons_of_mem c hd)

theorem findCategoryAux_some_spec (line : String) :
    ∀ (cats : List Category) (n m : Nat), findCategoryAux cats line n = some m →
      n ≤ m ∧ m - n < cats.length ∧
        categoryTakes (cats.getD (m - n) dfltCat).patterns line = true ∧
        ∀ k < m - n, categoryTakes (cats.getD k dfltCat).patterns line = false := by
  intro cats
  induction cats with
  | nil => intro n m h; simp [findCategoryAux] at h
  | cons c rest ih =>
    intro n m h
    by_cases hc : categoryTakes c.patterns line
    · simp only [findCategoryAux, hc, if_pos, Option.some.injEq] at h
      subst h
      refine ⟨le_refl n, by simp, ?_, ?_⟩
      · simpa using hc
      · intro k hk
        omega
    · simp only [findCategoryAux, hc, Bool.false_eq_true, if_false] at h
      rcases ih (n + 1) m h with ⟨hle, hlt, htake, hleast⟩
      have hmn : m - n = (m - (n + 1)) + 1 := by omega
      refine ⟨by omega, by simp; omega, ?_, ?_⟩
      · rw [hmn]
        simpa using htake
      · intro k hk
        match k with
        | 0 => exact Bool.eq_false_iff.mpr hc
        | k' + 1 =>
          have : k' < m - (n + 1) := by omega
          simpa using hleast k' this

theorem findCategory_none_iff (cats : List Category) (line : String) :
    findCategory cats line = none ↔
      ∀ c ∈ cats, categoryTakes c.patterns line = false :=
  findCategoryAux_none_iff line cats 0

theorem findCategory_some_spec (cats : List Category) (line : String) (j : Nat)
    (h : findCategory cats line = some j) :
    j < cats.length ∧ categoryTakes (cats.getD j dfltCat).patterns line = true ∧
      ∀ k < j, categoryTakes (cats.getD k dfltCat).patterns line = false := by
  have := findCategoryAux_some_spec line cats 0 j h
  simpa using this.2

/-- The unit records produced by a scan are chained: each starts at or after
the cursor, is nonempty as an index range, and the next one starts at or
after its end. -/
inductive ChainedFrom : Nat → List ExtractedUnit → Prop
  | nil (i : Nat) : ChainedFrom i []
  | cons (i : Nat) (u : ExtractedUnit) (us : List ExtractedUnit)
      (h1 : i ≤ u.start) (h2 : u.start < u.stop) (h3 : ChainedFrom u.stop us) :
      ChainedFrom i (u :: us)

theorem ChainedFrom.mono {i i' : Nat} {us : List ExtractedUnit}
    (hle : i ≤ i') (h : ChainedFrom i' us) : ChainedFrom i us := by
  cases h with
  | nil => exact ChainedFrom.nil i
  | cons _ u us h1 h2 h3 => exact ChainedFrom.cons i u us (le_trans hle h1) h2 h3

theorem ChainedFrom.mem {i : Nat} {us : List ExtractedUnit}
    (h : ChainedFrom i us) : ∀ u ∈ us, i ≤ u.start ∧ u.start < u.stop := by
  induction h with
  | nil => intro u hu; simp at hu
  | cons i u us h1 h2 h3 ih =>
    intro v hv
    rcases List.mem_cons.mp hv with rfl | hv'
    · exact ⟨h1, h2⟩
    · rcases ih v hv' with ⟨ha, hb⟩
      exact ⟨le_trans (le_trans h1 (le_of_lt h2)) ha, hb⟩

theorem mem_unitRange (k : Nat) (u : ExtractedUnit) :
    k ∈ unitRange u ↔ u.start ≤ k ∧ k < u.stop := by
  unfold unitRange rangeFromTo
  constructor
  · intro hk
    rcases List.mem_map.mp hk with ⟨m, hm, rfl⟩
    rw [List.mem_range] at hm
    omega
  · rintro ⟨h1, h2⟩
    refine List.mem_map.mpr ⟨k - u.start, ?_, by omega⟩
    rw [List.mem_range]
    omega

theorem chained_disjoint {i : Nat} {us : List ExtractedUnit}
    (h : ChainedFrom i us) :
    ∀ u1 ∈ us, ∀ u2 ∈ us, u1 ≠ u2 →
      ∀ k, k ∈ unitRange u1 → k ∉ unitRange u2 := by
  induction h with
  | nil => intro u1 hu1; simp at hu1
  | cons i u us h1 h2 h3 ih =>
    intro u1 hu1 u2 hu2 hne k hk1 hk2
    rcases List.mem_cons.mp hu1 with rfl | hm1 <;> rcases List.mem_cons.mp hu2 with h' | hm2
    · exact hne h'.symm
    · have hb2 := h3.mem u2 hm2
      rw [mem_unitRange] at hk1 hk2
      omega
    · subst h'
      have hb1 := h3.mem u1 hm1
      rw [mem_unitRange] at hk1 hk2
      omega
    · exact ih u1 hm1 u2 hm2 hne k hk1 hk2

theorem rangeFromTo_nodup (a b : Nat) : (rangeFromTo a b).Nodup := by
  unfold rangeFromTo
  exact (List.nodup_range _).map fun x y h => by omega

theorem chained_bind_nodup {i : Nat} {us : List ExtractedUnit}
    (h : ChainedFrom i us) : (us.flatMap unitRange).Nodup := by
  induction h with
  | nil => simp
  | cons i u us h1 h2 h3 ih =>
    rw [List.flatMap_cons, List.nodup_append]
    refine ⟨rangeFromTo_nodup _ _, ih, ?_⟩
    intro k hk1 hk2
    rcases List.mem_flatMap.mp hk2 with ⟨v, hv, hkv⟩
    have hb := h3.mem v hv
    rw [mem_unitRange] at hk1 hkv
    omega

theorem chained_bind_mem {i : Nat} {us : List ExtractedUnit}
    (h : ChainedFrom i us) : ∀ k ∈ us.flatMap unitRange, i ≤ k := by
  intro k hk
  rcases List.mem_flatMap.mp hk with ⟨v, hv, hkv⟩
  have hb := h.mem v hv
  rw [mem_unitRange] at hkv
  omega

/-- Per-unit content payload: the unit's lines, followed by one separator
newline exactly when the unit was a function-shaped extraction. -/
def unitPayload (u : ExtractedUnit) : List String :=
  u.ulines ++ if u.isFunc then ["\n"] else []

/-- Apply one unit's content update to the accumulated contents. -/
def applyUnit (C : List (List String)) (u : ExtractedUnit) : List (List String) :=
  setContent C u.cat (unitPayload u)

/-- Accumulated contents after a sequence of unit updates. -/
def contentsAfter (C : List (List String)) (us : List ExtractedUnit) :
    List (List String) :=
  us.foldl applyUnit C

/-- Content category `j` receives from a sequence of units: the payloads of
its own units, concatenated in scan order. -/
def emission (j : Nat) (us : List ExtractedUnit) : List String :=
  (us.filter fun u => u.cat == j).flatMap unitPayload

/-- Invariants of the unit trace: units are chained starting at the cursor,
end within the input, and each is owned by the category `findCategory`
selects for its signature line. -/
theorem scanTrace_spec (catalog : List Category) (lines : List String) :
    ∀ fuel i, ChainedFrom i (scanTrace catalog lines fuel i) ∧
      ∀ u ∈ scanTrace catalog lines fuel i,
        u.stop ≤ lines.length ∧ u.cat < catalog.length ∧
          findCategory catalog (lines.getD u.start "") = some u.cat := by
  intro fuel
  induction fuel with
  | zero =>
    intro i
    exact ⟨ChainedFrom.nil i, by simp [scanTrace]⟩
  | succ fuel ih =>
    intro i
    by_cases hi : i < lines.length
    · rcases hfc : findCategory catalog (lines.getD i "") with _ | j
      · have hrw : scanTrace catalog lines (fuel + 1) i =
            scanTrace catalog lines fuel (i + 1) := by
          simp only [scanTrace, hi, if_pos, hfc]
        rw [hrw]
        exact ⟨(ih (i + 1)).1.mono (by omega) , (ih (i + 1)).2⟩
      · have hjlt := (findCategory_some_spec catalog _ j hfc).1
        by_cases hf : isFuncLine (lines.getD i "")
        · have hrw : scanTrace catalog lines (fuel + 1) i =
              ⟨j, i, (extract_function_with_body lines i).2,
                (extract_function_with_body lines i).1, true⟩ ::
                scanTrace catalog lines fuel (extract_function_with_body lines i).2 := by
            simp only [scanTrace, hi, if_pos, hfc, hf, if_true]
          rcases extract_end_bounds lines i hi with ⟨hlt, hle⟩
          rw [hrw]
          refine ⟨ChainedFrom.cons i _ _ (le_refl i) hlt
            ((ih _).1.mono (le_refl _)), ?_⟩
          intro u hu
          rcases List.mem_cons.mp hu with rfl | hu'
          · exact ⟨hle, hjlt, hfc⟩
          · exact (ih _).2 u hu'
        · have hrw : scanTrace catalog lines (fuel + 1) i =
              ⟨j, i, i + 1, [lines.getD i ""], false⟩ ::
                scanTrace catalog lines fuel (i + 1) := by
            simp only [scanTrace, hi, if_pos, hfc, hf, Bool.false_eq_true, if_false]
          rw [hrw]
          refine ⟨ChainedFrom.cons i _ _ (le_refl i) (Nat.lt_succ_self i)
            ((ih _).1.mono (le_refl _)), ?_⟩
          intro u hu
          rcases List.mem_cons.mp hu with rfl | hu'
          · exact ⟨show i + 1 ≤ lines.length from by omega, hjlt, hfc⟩
          · exact (ih _).2 u hu'
    · have hrw : scanTrace catalog lines (fuel + 1) i = [] := by
        simp only [scanTrace, hi, if_false]
      rw [hrw]
      exact ⟨ChainedFrom.nil i, by simp⟩

/-- Correspondence between the accumulator-passing loop of `main` and the
unit trace: the loop's contents are the initial contents updated by the
trace's units, and its `assigned` list and unit list extend the initial
accumulators with exactly the trace's ranges and units. -/
theorem scanLoop_eq (catalog : List Category) (lines : List String) :
    ∀ fuel i C A U,
      scanLoop catalog lines fuel i C A U =
        (contentsAfter C (scanTrace catalog lines fuel i),
         A ++ (scanTrace catalog lines fuel i).flatMap unitRange,
         U ++ scanTrace catalog lines fuel i) := by
  intro fuel
  induction fuel with
  | zero =>
    intro i C A U
    simp [scanLoop, scanTrace, contentsAfter]
  | succ fuel ih =>
    intro i C A U
    by_cases hi : i < lines.length
    · rcases hfc : findCategory catalog (lines.getD i "") with _ | j
      · have h1 : scanLoop catalog lines (fuel + 1) i C A U =
            scanLoop catalog lines fuel (i + 1) C A U := by
          simp only [scanLoop, hi, if_pos, hfc]
        have h2 : scanTrace catalog lines (fuel + 1) i =
            scanTrace catalog lines fuel (i + 1) := by
          simp only [scanTrace, hi, if_pos, hfc]
        rw [h1, h2, ih]
      · by_cases hf : isFuncLine (lines.getD i "")
        · have h1 : scanLoop catalog lines (fuel + 1) i C A U =
              scanLoop catalog lines fuel (extract_function_with_body lines i).2
                (setContent C j ((extract_function_with_body lines i).1 ++ ["\n"]))
                (A ++ rangeFromTo i (extract_function_with_body lines i).2)
                (U ++ [⟨j, i, (extract_function_with_body lines i).2,
                  (extract_function_with_body lines i).1, true⟩]) := by
            simp only [scanLoop, hi, if_pos, hfc, hf, if_true]
          have h2 : scanTrace catalog lines (fuel + 1) i =
              ⟨j, i, (extract_function_with_body lines i).2,
                (extract_function_with_body lines i).1, true⟩ ::
                scanTrace catalog lines fuel (extract_function_with_body lines i).2 := by
            simp only [scanTrace, hi, if_pos, hfc, hf, if_true]
          rw [h1, h2, ih]
          refine congrArg₂ Prod.mk ?_ (congrArg₂ Prod.mk ?_ ?_)
          · rfl
          · simp [unitRange, List.append_assoc]
          · simp [List.append_assoc]
        · have h1 : scanLoop catalog lines (fuel + 1) i C A U =
              scanLoop catalog lines fuel (i + 1)
                (setContent C j [lines.getD i ""]) (A ++ [i])
                (U ++ [⟨j, i, i + 1, [lines.getD i ""], false⟩]) := by
            simp only [scanLoop, hi, if_pos, hfc, hf, Bool.false_eq_true, if_false]
          have h2 : scanTrace catalog lines (fuel + 1) i =
              ⟨j, i, i + 1, [lines.getD i ""], false⟩ ::
                scanTrace catalog lines fuel (i + 1) := by
            simp only [scanTrace, hi, if_pos, hfc, hf, Bool.false_eq_true, if_false]
          rw [h1, h2, ih]
          refine congrArg₂ Prod.mk ?_ (congrArg₂ Prod.mk ?_ ?_)
          · rfl
          · have hr1 : List.range 1 = [0] := rfl
            simp [unitRange, rangeFromTo, hr1, List.append_assoc]
          · simp [List.append_assoc]
    · have h1 : scanLoop catalog lines (fuel + 1) i C A U = (C, A, U) := by
        simp only [scanLoop, hi, if_false]
      have h2 : scanTrace catalog lines (fuel + 1) i = [] := by
        simp only [scanTrace, hi, if_false]
      rw [h1, h2]
      simp [contentsAfter]

theorem getD_set_self (l : List (List String)) (i : Nat) (x : List String)
    (h : i < l.length) : (l.set i x).getD i [] = x := by
  rw [List.getD_eq_getElem?_getD]
  simp [List.getElem?_set_self', h]

theorem getD_set_ne (l : List (List String)) (i j : Nat) (x : List String)
    (h : j ≠ i) : (l.set i x).getD j [] = l.getD j [] := by
  rw [List.getD_eq_getElem?_getD, List.getD_eq_getElem?_getD]
  rw [List.getElem?_set_ne (by omega)]

/-- The contents a category ends up with after a chain of unit updates:
its initial content followed by the payloads of its own units, in order. -/
theorem contentsAfter_getD (us : List ExtractedUnit) :
    ∀ (C : List (List String)), (∀ u ∈ us, u.cat < C.length) → ∀ j,
      (contentsAfter C us).getD j [] = C.getD j [] ++ emission j us := by
  induction us with
  | nil => intro C _ j; simp [contentsAfter, emission]
  | cons u rest ih =>
    intro C hcat j
    have hstep : contentsAfter C (u :: rest) = contentsAfter (applyUnit C u) rest := rfl
    have hlen : (applyUnit C u).length = C.length := by
      simp [applyUnit, setContent]
    have hrest : ∀ v ∈ rest, v.cat < (applyUnit C u).length := by
      intro v hv
      rw [hlen]
      exact hcat v (List.mem_cons_of_mem u hv)
    rw [hstep, ih (applyUnit C u) hrest j]
    by_cases hj : j = u.cat
    · have h1 : (applyUnit C u).getD j [] = C.getD j [] ++ unitPayload u := by
        unfold applyUnit setContent
        rw [hj]
        exact getD_set_self C u.cat _ (hcat u (List.mem_cons_self u rest))
      rw [h1]
      have he : emission j (u :: rest) = unitPayload u ++ emission j rest := by
        simp [emission, hj]
      rw [he, List.append_assoc]
    · have h1 : (applyUnit C u).getD j [] = C.getD j [] := by
        unfold applyUnit setContent
        exact getD_set_ne C u.cat j _ hj
      rw [h1]
      have he : emission j (u :: rest) = emission j rest := by
        simp [emission, Ne.symm hj]
      rw [he]

/-- No index of `[i, k)` is in the assigned set. -/
def noneIn (assigned : List Nat) (i k : Nat) : Bool :=
  (List.range' i (k - i)).all fun j => !assigned.contains j

/-- No index below `k` is in the assigned set: the walk of Pass 2 still has
`in_header = True` when it reaches index `k`. -/
def noAssignedBefore (assigned : List Nat) (k : Nat) : Bool :=
  noneIn assigned 0 k

/-- Which enumerated lines Pass 2 appends to `header`: unconsumed, coming
before the first consumed index, not function-signature shaped, nonempty
after stripping and not comment-start. -/
def hdrP (assigned : List Nat) (p : Nat × String) : Bool :=
  !assigned.contains p.1 && (noAssignedBefore assigned p.1 && (!isFuncLine p.2 && headerKeep p.2))

/-- Which enumerated lines Pass 2 appends to `unmatched`: unconsumed, at or
after the first consumed index, nonempty after stripping. -/
def unmP (assigned : List Nat) (p : Nat × String) : Bool :=
  !assigned.contains p.1 && (!noAssignedBefore assigned p.1 && stripNonempty p.2)

/-- The header partition, as a filter of the enumerated input. -/
def headerSpec (lines : List String) (assigned : List Nat) : List (Nat × String) :=
  lines.enum.filter (hdrP assigned)

/-- The unmatched partition, as a filter of the enumerated input carrying
1-based line numbers. -/
def unmatchedSpec (lines : List String) (assigned : List Nat) : List (Nat × String) :=
  (lines.enum.filter (unmP assigned)).map fun p => (p.1 + 1, p.2)

theorem enumFrom_key_le {α : Type} (l : List α) :
    ∀ (n : Nat) (p : Nat × α), p ∈ l.enumFrom n → n ≤ p.1 := by
  induction l with
  | nil => intro n p hp; simp [List.enumFrom] at hp
  | cons x xs ih =>
    intro n p hp
    rcases List.mem_cons.mp hp with rfl | hp'
    · exact le_refl n
    · exact le_trans (by omega) (ih (n + 1) p hp')

theorem noneIn_self (assigned : List Nat) (i : Nat) : noneIn assigned i i = true := by
  simp [noneIn]

theorem noneIn_step (assigned : List Nat) (i k : Nat) (h : i + 1 ≤ k) :
    noneIn assigned i k = (!assigned.contains i && noneIn assigned (i + 1) k) := by
  unfold noneIn
  have h1 : k - i = (k - (i + 1)) + 1 := by omega
  rw [h1, List.range'_succ]
  simp

/-- Header filter of the Pass-2 walk relative to a position: the incoming
`in_header` flag still holds, no index of `[i, p.1)` is assigned, the line is
unconsumed, not function-shaped, and survives the header content test. -/
def hdrAt (assigned : List Nat) (ihh : Bool) (i : Nat) (p : Nat × String) : Bool :=
  !assigned.contains p.1 &&
    ((ihh && noneIn assigned i p.1) && (!isFuncLine p.2 && headerKeep p.2))

/-- Unmatched filter of the Pass-2 walk relative to a position: unconsumed,
no longer in the header phase, and nonempty after stripping. -/
def unmAt (assigned : List Nat) (ihh : Bool) (i : Nat) (p : Nat × String) : Bool :=
  !assigned.contains p.1 && (!(ihh && noneIn assigned i p.1) && stripNonempty p.2)

/-- Full characterization of the Pass-2 loop from an arbitrary position:
the header and unmatched accumulators are extended with exactly the filters
of the remaining enumerated lines. -/
theorem coverageLoop_char (assigned : List Nat) :
    ∀ (rest : List String) (i : Nat) (ihh : Bool)
      (h u : List (Nat × String)),
      coverageLoop assigned rest i ihh h u =
        (h ++ (rest.enumFrom i).filter (hdrAt assigned ihh i),
         u ++ ((rest.enumFrom i).filter (unmAt assigned ihh i)).map
            fun p => (p.1 + 1, p.2)) := by
  intro rest
  induction rest with
  | nil =>
    intro i ihh h u
    simp [coverageLoop, List.enumFrom]
  | cons line tail ih =>
    intro i ihh h u
    have hcons : (line :: tail).enumFrom i = (i, line) :: tail.enumFrom (i + 1) := rfl
    have hkey : ∀ p ∈ tail.enumFrom (i + 1), i + 1 ≤ p.1 :=
      fun p hp => enumFrom_key_le tail (i + 1) p hp
    rw [hcons, List.filter_cons, List.filter_cons]
    by_cases hci : assigned.contains i = true
    · have hstep : coverageLoop assigned (line :: tail) i ihh h u =
          coverageLoop assigned tail (i + 1) false h u := by
        simp only [coverageLoop]
        rw [if_pos hci]
      have hmem : i ∈ assigned := by simpa using hci
      have hh : hdrAt assigned ihh i (i, line) = false := by
        unfold hdrAt
        simp [hmem]
      have hu2 : unmAt assigned ihh i (i, line) = false := by
        unfold unmAt
        simp [hmem]
      rw [hh, hu2]
      simp only [Bool.false_eq_true, if_false]
      rw [hstep, ih (i + 1) false h u]
      have hph : ∀ p ∈ tail.enumFrom (i + 1),
          hdrAt assigned ihh i p = hdrAt assigned false (i + 1) p := by
        intro p hp
        unfold hdrAt
        rw [noneIn_step assigned i p.1 (hkey p hp), hci]
        simp
      have hpu : ∀ p ∈ tail.enumFrom (i + 1),
          unmAt assigned ihh i p = unmAt assigned false (i + 1) p := by
        intro p hp
        unfold unmAt
        rw [noneIn_step assigned i p.1 (hkey p hp), hci]
        simp
      rw [List.filter_congr hph, List.filter_congr hpu]
    · have hcif : assigned.contains i = false := Bool.eq_false_iff.mpr hci
      have hmem : i ∉ assigned := by simpa using hci
      have hph : ∀ p ∈ tail.enumFrom (i + 1),
          hdrAt assigned ihh i p = hdrAt assigned ihh (i + 1) p := by
        intro p hp
        unfold hdrAt
        rw [noneIn_step assigned i p.1 (hkey p hp), hcif]
        simp
      have hpu : ∀ p ∈ tail.enumFrom (i + 1),
          unmAt assigned ihh i p = unmAt assigned ihh (i + 1) p := by
        intro p hp
        unfold unmAt
        rw [noneIn_step assigned i p.1 (hkey p hp), hcif]
        simp
      rw [List.filter_congr hph, List.filter_congr hpu]
      by_cases hih : ihh = true
      · subst hih
        by_cases hfl : isFuncLine line = true
        · have hstep : coverageLoop assigned (line :: tail) i true h u =
              coverageLoop assigned tail (i + 1) true h u := by
            simp only [coverageLoop]
            rw [if_neg hci, if_neg (by simp [hfl]), if_neg (by simp)]
          have hh : hdrAt assigned true i (i, line) = false := by
            unfold hdrAt
            simp [hfl]
          have hu2 : unmAt assigned true i (i, line) = false := by
            unfold unmAt
            simp [hmem, noneIn_self]
          rw [hh, hu2]
          simp only [Bool.false_eq_true, if_false]
          rw [hstep, ih (i + 1) true h u]
        · by_cases hkeep : headerKeep line = true
          · have hstep : coverageLoop assigned (line :: tail) i true h u =
                coverageLoop assigned tail (i + 1) true (h ++ [(i, line)]) u := by
              simp only [coverageLoop]
              rw [if_neg hci, if_pos (by simp [hfl]), if_pos hkeep]
            have hh : hdrAt assigned true i (i, line) = true := by
              unfold hdrAt
              simp [hmem, noneIn_self, hfl, hkeep]
            have hu2 : unmAt assigned true i (i, line) = false := by
              unfold unmAt
              simp [hmem, noneIn_self]
            rw [hh, hu2]
            simp only [if_true, Bool.false_eq_true, if_false]
            rw [hstep, ih (i + 1) true (h ++ [(i, line)]) u]
            simp [List.append_assoc]
          · have hstep : coverageLoop assigned (line :: tail) i true h u =
                coverageLoop assigned tail (i + 1) true h u := by
              simp only [coverageLoop]
              rw [if_neg hci, if_pos (by simp [hfl]), if_neg hkeep]
            have hh : hdrAt assigned true i (i, line) = false := by
              unfold hdrAt
              simp [hkeep]
            have hu2 : unmAt assigned true i (i, line) = false := by
              unfold unmAt
              simp [hmem, noneIn_self]
            rw [hh, hu2]
            simp only [Bool.false_eq_true, if_false]
            rw [hstep, ih (i + 1) true h u]
      · have hih' : ihh = false := Bool.eq_false_iff.mpr hih
        subst hih'
        by_cases hne : stripNonempty line = true
        · have hstep : coverageLoop assigned (line :: tail) i false h u =
              coverageLoop assigned tail (i + 1) false h (u ++ [(i + 1, line)]) := by
            simp only [coverageLoop]
            rw [if_neg hci, if_neg (by simp), if_pos (by simp), if_pos hne]
          have hh : hdrAt assigned false i (i, line) = false := by
            unfold hdrAt
            simp
          have hu2 : unmAt assigned false i (i, line) = true := by
            unfold unmAt
            simp [hmem, hne]
          rw [hh, hu2]
          simp only [if_true, Bool.false_eq_true, if_false]
          rw [hstep, ih (i + 1) false h (u ++ [(i + 1, line)])]
          simp [List.append_assoc]
        · have hstep : coverageLoop assigned (line :: tail) i false h u =
              coverageLoop assigned tail (i + 1) false h u := by
            simp only [coverageLoop]
            rw [if_neg hci, if_neg (by simp), if_pos (by simp), if_neg hne]
          have hh : hdrAt assigned false i (i, line) = false := by
            unfold hdrAt
            simp
          have hu2 : unmAt assigned false i (i, line) = false := by
            unfold unmAt
            simp [hne]
          rw [hh, hu2]
          simp only [Bool.false_eq_true, if_false]
          rw [hstep, ih (i + 1) false h u]

/-- Lines dropped silently by Pass 2: unconsumed but in neither partition. -/
def dropP (assigned : List Nat) (p : Nat × String) : Bool :=
  !assigned.contains p.1 && (!(hdrP assigned p) && !(unmP assigned p))

theorem getD_mem_of_lt {α : Type} (l : List α) (n : Nat) (d : α)
    (h : n < l.length) : l.getD n d ∈ l := by
  rw [List.getD_eq_getElem l d h]
  exact List.getElem_mem h

theorem enumFrom_snd_getD (d : String) :
    ∀ (l : List String) (n : Nat) (p : Nat × String),
      p ∈ l.enumFrom n → p.2 = l.getD (p.1 - n) d := by
  intro l
  induction l with
  | nil => intro n p hp; simp [List.enumFrom] at hp
  | cons x xs ih =>
    intro n p hp
    rcases List.mem_cons.mp hp with rfl | hp'
    · simp
    · have hk := enumFrom_key_le xs (n + 1) p hp'
      have h1 : p.1 - n = (p.1 - (n + 1)) + 1 := by omega
      rw [h1, List.getD_cons_succ]
      exact ih (n + 1) p hp'

theorem enum_snd_getD (lines : List String) (p : Nat × String)
    (hp : p ∈ lines.enum) : p.2 = lines.getD p.1 "" := by
  have := enumFrom_snd_getD "" lines 0 p hp
  simpa using this

/-- Every enumerated line falls in exactly one of: consumed, header,
unmatched, silently dropped. -/
theorem partitionCount (assigned : List Nat) :
    ∀ l : List (Nat × String),
      l.length = List.countP (fun p => assigned.contains p.1) l +
        List.countP (hdrP assigned) l + List.countP (unmP assigned) l +
        List.countP (dropP assigned) l := by
  intro l
  induction l with
  | nil => simp
  | cons p t ih =>
    simp only [List.countP_cons, List.length_cons]
    by_cases hc : assigned.contains p.1 = true
    · have hmem : p.1 ∈ assigned := List.elem_iff.mp hc
      have h1 : hdrP assigned p = false := by
        unfold hdrP
        simp [hmem]
      have h2 : unmP assigned p = false := by
        unfold unmP
        simp [hmem]
      have h3 : dropP assigned p = false := by
        unfold dropP
        simp [hmem]
      rw [hc, h1, h2, h3]
      simp only [if_true, Bool.false_eq_true, if_false]
      omega
    · have hc' : assigned.contains p.1 = false := Bool.eq_false_iff.mpr hc
      have hmem : p.1 ∉ assigned := fun hm => hc (List.elem_iff.mpr hm)
      rw [hc']
      by_cases hh : hdrP assigned p = true
      · have hna : noAssignedBefore assigned p.1 = true := by
          unfold hdrP at hh
          cases hA : noAssignedBefore assigned p.1 with
          | true => rfl
          | false =>
            rw [hA] at hh
            simp at hh
        have h2 : unmP assigned p = false := by
          unfold unmP
          simp [hna]
        have h3 : dropP assigned p = false := by
          unfold dropP
          simp [hh]
        rw [hh, h2, h3]
        simp only [if_true, Bool.false_eq_true, if_false]
        omega
      · have hh' : hdrP assigned p = false := Bool.eq_false_iff.mpr hh
        by_cases hu : unmP assigned p = true
        · have h3 : dropP assigned p = false := by
            unfold dropP
            simp [hu]
          rw [hh', hu, h3]
          simp only [if_true, Bool.false_eq_true, if_false]
          omega
        · have hu' : unmP assigned p = false := Bool.eq_false_iff.mpr hu
          have h3 : dropP assigned p = true := by
            unfold dropP
            simp [hmem, hh', hu']
          rw [hh', hu', h3]
          simp only [if_true, Bool.false_eq_true, if_false]
          omega

theorem countP_enum_fst (lines : List String) (q : Nat → Bool) :
    List.countP (fun p => q p.1) lines.enum =
      List.countP q (List.range lines.length) := by
  rw [← List.enum_map_fst lines, List.countP_map]
  rfl

theorem countP_contains_range (assigned : List Nat) (n : Nat)
    (hnd : assigned.Nodup) (hb : ∀ k ∈ assigned, k < n) :
    List.countP (fun k => assigned.contains k) (List.range n) = assigned.length := by
  rw [List.countP_eq_length_filter]
  have hperm : List.Perm ((List.range n).filter fun k => assigned.contains k) assigned := by
    rw [List.perm_ext_iff_of_nodup ((List.nodup_range n).filter _) hnd]
    intro a
    rw [List.mem_filter, List.mem_range]
    constructor
    · rintro ⟨_, hc⟩
      exact List.elem_iff.mp hc
    · intro ha
      exact ⟨hb a ha, List.elem_iff.mpr ha⟩
  exact hperm.length_eq

theorem scanLoop_exit (catalog : List Category) (lines : List String)
    (i : Nat) (hi : ¬ i < lines.length) :
    ∀ fuel C A U, scanLoop catalog lines fuel i C A U = (C, A, U) := by
  intro fuel C A U
  cases fuel with
  | zero => rfl
  | succ fuel => simp only [scanLoop, hi, if_false]

theorem scanTrace_all_none (catalog : List Category) (lines : List String)
    (hall : ∀ k < lines.length, findCategory catalog (lines.getD k "") = none) :
    ∀ fuel i, scanTrace catalog lines fuel i = [] := by
  intro fuel
  induction fuel with
  | zero => intro i; rfl
  | succ fuel ih =>
    intro i
    by_cases hi : i < lines.length
    · have hstep : scanTrace catalog lines (fuel + 1) i =
          scanTrace catalog lines fuel (i + 1) := by
        simp only [scanTrace, hi, if_pos, hall i hi]
      rw [hstep, ih (i + 1)]
    · simp only [scanTrace, hi, if_false]

theorem categoryTakes_imp_any (ps : List (String → Bool)) (line : String)
    (h : categoryTakes ps line = true) : ps.any (fun p => p line) = true := by
  induction ps with
  | nil => simp [categoryTakes] at h
  | cons p rest ih =>
    by_cases hp : p line
    · simp [hp]
    · simp only [categoryTakes, hp] at h
      have := ih (by simpa [hp] using h)
      simp [hp, this]

theorem freshContents_getD (catalog : List Category) (j : Nat) :
    (freshContents catalog).getD j [] = [] := by
  unfold freshContents
  rw [List.getD_eq_getElem?_getD]
  rcases h : (List.map (fun _ => ([] : List String)) catalog)[j]? with _ | v
  · rfl
  · rcases List.getElem?_eq_some_iff.mp h with ⟨hlt, hv⟩
    rw [List.getElem_map] at hv
    simp [← hv]

/-- Pass 2 computes exactly the two filter-based partitions. -/
theorem mainCoverage_char (lines : List String) (assigned : List Nat) :
    mainCoverage lines assigned =
      (headerSpec lines assigned, unmatchedSpec lines assigned) := by
  unfold mainCoverage headerSpec unmatchedSpec
  rw [coverageLoop_char assigned lines 0 true [] []]
  have henum : lines.enum = lines.enumFrom 0 := rfl
  rw [henum]
  have hph : ∀ p ∈ lines.enumFrom 0, hdrAt assigned true 0 p = hdrP assigned p := by
    intro p _
    unfold hdrAt hdrP noAssignedBefore
    simp
  have hpu : ∀ p ∈ lines.enumFrom 0, unmAt assigned true 0 p = unmP assigned p := by
    intro p _
    unfold unmAt unmP noAssignedBefore
    simp
  rw [List.filter_congr hph, List.filter_congr hpu]
  simp

theorem runScan_units (catalog : List Category) (lines : List String)
    (init : List (List String)) :
    (runScan catalog lines init).units = scanTrace catalog lines lines.length 0 := by
  unfold runScan
  rw [scanLoop_eq]
  simp

theorem runScan_assigned (catalog : List Category) (lines : List String)
    (init : List (List String)) :
    (runScan catalog lines init).assigned =
      (scanTrace catalog lines lines.length 0).flatMap unitRange := by
  unfold runScan
  rw [scanLoop_eq]
  simp

theorem runScan_contents_getD (catalog : List Category) (lines : List String)
    (init : List (List String)) (hlen : init.length = catalog.length) (j : Nat) :
    (runScan catalog lines init).contents.getD j [] =
      init.getD j [] ++ emission j (scanTrace catalog lines lines.length 0) := by
  unfold runScan
  rw [scanLoop_eq]
  exact contentsAfter_getD _ init
    (fun u hu => by
      rw [hlen]
      exact ((scanTrace_spec catalog lines lines.length 0).2 u hu).2.1) j

theorem mainScan_units (catalog : List Category) (lines : List String) :
    (mainScan catalog lines).units = scanTrace catalog lines lines.length 0 :=
  runScan_units catalog lines (freshContents catalog)

theorem mainScan_assigned (catalog : List Category) (lines : List String) :
    (mainScan catalog lines).assigned =
      (scanTrace catalog lines lines.length 0).flatMap unitRange :=
  runScan_assigned catalog lines (freshContents catalog)

theorem mainScan_contents_getD (catalog : List Category) (lines : List String) (j : Nat) :
    (mainScan catalog lines).contents.getD j [] =
      emission j (scanTrace catalog lines lines.length 0) := by
  unfold mainScan
  rw [runScan_contents_getD catalog lines (freshContents catalog)
    (by simp [freshContents]) j]
  rw [freshContents_getD]
  rfl

theorem mainScan_assigned_nodup (catalog : List Category) (lines : List String) :
    (mainScan catalog lines).assigned.Nodup := by
  rw [mainScan_assigned]
  exact chained_bind_nodup (scanTrace_spec catalog lines lines.length 0).1

theorem mainScan_assigned_lt (catalog : List Category) (lines : List String) :
    ∀ k ∈ (mainScan catalog lines).assigned, k < lines.length := by
  rw [mainScan_assigned]
  intro k hk
  rcases List.mem_flatMap.mp hk with ⟨v, hv, hkv⟩
  have hstop := ((scanTrace_spec catalog lines lines.length 0).2 v hv).1
  rw [mem_unitRange] at hkv
  omega

theorem hdrP_parts {assigned : List Nat} {p : Nat × String}
    (h : hdrP assigned p = true) :
    assigned.contains p.1 = false ∧ noAssignedBefore assigned p.1 = true ∧
      isFuncLine p.2 = false ∧ headerKeep p.2 = true := by
  unfold hdrP at h
  rcases hc : assigned.contains p.1 with _ | _ <;> rw [hc] at h <;>
    rcases hn : noAssignedBefore assigned p.1 with _ | _ <;> rw [hn] at h <;>
    rcases hf : isFuncLine p.2 with _ | _ <;> rw [hf] at h <;>
    rcases hk : headerKeep p.2 with _ | _ <;> rw [hk] at h <;>
    simp_all

theorem unmP_parts {assigned : List Nat} {p : Nat × String}
    (h : unmP assigned p = true) :
    assigned.contains p.1 = false ∧ noAssignedBefore assigned p.1 = false ∧
      stripNonempty p.2 = true := by
  unfold unmP at h
  rcases hc : assigned.contains p.1 with _ | _ <;> rw [hc] at h <;>
    rcases hn : noAssignedBefore assigned p.1 with _ | _ <;> rw [hn] at h <;>
    rcases hs : stripNonempty p.2 with _ | _ <;> rw [hs] at h <;>
    simp_all

/-- The stripped text of every line kept in the header partition is
nonempty. -/
theorem headerKeep_nonempty {s : String} (h : headerKeep s = true) :
    stripNonempty s = true := by
  unfold headerKeep at h
  rcases hs : stripNonempty s with _ | _ <;> rw [hs] at h <;> simp_all

/-! Concrete inputs used by witnesses and counterexamples.  Braces inside
string literals are written with their character codes. -/

/-- A one-line function declaration whose body opens and closes on the same
line (spec scenario 3). -/
def gLines : List String := ["function g_() \x7b return 2; \x7d\n"]

/-- A line matched by two categories at once (spec scenario 6). -/
def dualLine : String := "function dual_() \x7b\n"

/-- Catalog with two categories whose rules both match `dualLine`. -/
def c3cats : List Category :=
  [⟨"menus.gs", "Custom menu functions", [fun l => chStarts l.data "function dual_"]⟩,
   ⟨"testing.gs", "Test functions", [fun l => chStarts l.data "function dual"]⟩]

/-- Catalog matching the broken declaration of spec scenario 5. -/
def c4cat : List Category :=
  [⟨"bank-x.gs", "broken integration", [fun l => chStarts l.data "function broken_"]⟩]

/-- Unbalanced input: end of input is reached at depth 1 (spec scenario 5). -/
def c4linesA : List String := ["function broken_() \x7b\n", "  if (x) \x7b\n"]

/-- The balanced two-line variant of the same declaration. -/
def c4linesB : List String := ["function broken_() \x7b\n", "\x7d\n"]

/-- One-category catalog capturing a single `var` declaration. -/
def c5cat : List Category :=
  [⟨"config.gs", "Configuration constants", [fun l => chStarts l.data "var SHEET_NAME"]⟩]

/-- A single `var` line matched by `c5cat`. -/
def c5lines : List String := ["var SHEET_NAME = 1\n"]

/-- The two-line input of spec scenario 4: a declaration no rule matches. -/
def c7lines : List String := ["function unknownThing_() \x7b\n", "\x7d\n"]

/-- A catalog none of whose rules match either line of `c7lines`. -/
def c7cat : List Category :=
  [⟨"config.gs", "Configuration constants", [fun l => chStarts l.data "var LIMIT"]⟩]

/-- Two categories capturing two adjacent `var` declarations. -/
def c8cat : List Category :=
  [⟨"config.gs", "first", [fun l => chStarts l.data "var A"]⟩,
   ⟨"utils-core.gs", "second", [fun l => chStarts l.data "var B"]⟩]

/-- Two `var` lines, one per category of `c8cat`. -/
def c8lines : List String := ["var A = 1\n", "var B = 2\n"]

/-- One-category catalog capturing a three-line function (spec scenario 2). -/
def c9cat : List Category :=
  [⟨"utils-core.gs", "Core utilities", [fun l => chStarts l.data "function f_"]⟩]

/-- The three-line function declaration of spec scenario 2. -/
def c9lines : List String := ["function f_() \x7b\n", "  return 1;\n", "\x7d\n"]

/-- An unmatched function line followed by a stray line, nothing consumed. -/
def c6lines : List String := ["function unknown_() \x7b\n", "stray\n"]

/-- A comment header line followed by an unmatched `var` line. -/
def c10lines : List String := ["/* header\n", "var X = 1\n"]

/-- Claim C2: the balanced extractor appends each line from the start index
on, tracking depth by brace counts and the opened flag, stops as soon as
opened holds with depth zero returning end index one past that line, and a
signature line that is balanced on its own yields a one-line unit ending at
`start + 1`. -/
theorem c2_extractor (lines : List String) (start : Nat)
    (h : start < lines.length) : extractClaim lines start :=
  ⟨extract_char lines start, fun hb => extract_one_line lines start h hb.1 hb.2⟩

theorem c2_extractor_witness :
    0 < gLines.length ∧ extractClaim gLines 0 :=
  ⟨by decide, c2_extractor gLines 0 (by decide)⟩

/-- What claim C3 concludes for a line matched by an earlier and a later
category: some category index at or before the earlier one is chosen, it is
the first whose rules match, the later category never receives the line's
unit in any scan, the choice is exactly the earlier category when nothing
before it matches, and lines matched by no category classify to `none`. -/
def c3Conclusion (catalog : List Category) (line : String) (j1 j2 : Nat) : Prop :=
  (∃ j, j ≤ j1 ∧ j ≠ j2 ∧ findCategory catalog line = some j ∧
    catRuleMatches (catalog.getD j dfltCat) line = true ∧
    (∀ k < j, catRuleMatches (catalog.getD k dfltCat) line = false) ∧
    (∀ lines : List String, ∀ u ∈ (mainScan catalog lines).units,
      lines.getD u.start "" = line → u.cat = j)) ∧
  ((∀ k < j1, catRuleMatches (catalog.getD k dfltCat) line = false) →
    findCategory catalog line = some j1) ∧
  (∀ line' : String, (∀ c ∈ catalog, catRuleMatches c line' = false) →
    findCategory catalog line' = none)

theorem takes_eq_matches (c : Category) (line : String)
    (hshape : (isFuncLine line || isVarLine line) = true) :
    categoryTakes c.patterns line = catRuleMatches c line :=
  categoryTakes_shaped c.patterns line hshape

/-- Claim C3: first-match-wins classification.  A shaped line matching a
rule of category `j1` and a rule of a later category `j2` is classified to
the first matching category, never to `j2`; the scan assigns every unit made
from such a line accordingly; a line matching no category classifies to
none. -/
theorem c3_first_match_wins (catalog : List Category) (line : String)
    (j1 j2 : Nat) (hshape : (isFuncLine line || isVarLine line) = true)
    (h12 : j1 < j2) (h2len : j2 < catalog.length)
    (hm1 : catRuleMatches (catalog.getD j1 dfltCat) line = true)
    (hm2 : catRuleMatches (catalog.getD j2 dfltCat) line = true) :
    c3Conclusion catalog line j1 j2 := by
  have h1len : j1 < catalog.length := lt_trans h12 h2len
  have htakes1 : categoryTakes (catalog.getD j1 dfltCat).patterns line = true := by
    rw [takes_eq_matches _ _ hshape]
    exact hm1
  have hne : findCategory catalog line ≠ none := by
    intro hn
    rw [findCategory_none_iff] at hn
    have := hn (catalog.getD j1 dfltCat) (getD_mem_of_lt catalog j1 dfltCat h1len)
    rw [this] at htakes1
    exact Bool.false_ne_true htakes1
  rcases hopt : findCategory catalog line with _ | j
  · exact absurd hopt hne
  rcases findCategory_some_spec catalog line j hopt with ⟨hjlen, hjtakes, hjleast⟩
  have hjle : j ≤ j1 := by
    by_contra hgt
    have := hjleast j1 (by omega)
    rw [this] at htakes1
    exact Bool.false_ne_true htakes1
  refine ⟨⟨j, hjle, by omega, hopt, ?_, ?_, ?_⟩, ?_, ?_⟩
  · rw [← takes_eq_matches _ _ hshape]
    exact hjtakes
  · intro k hk
    rw [← takes_eq_matches _ _ hshape]
    exact hjleast k hk
  · intro ls u hu hline
    have hmem : u ∈ scanTrace catalog ls ls.length 0 := by
      rw [mainScan_units] at hu
      exact hu
    have hfu := ((scanTrace_spec catalog ls ls.length 0).2 u hmem).2.2
    rw [hline, hopt] at hfu
    exact (Option.some.injEq _ _).mp hfu.symm
  · intro hleast1
    have hj1 : j = j1 := by
      by_contra hne'
      have hjlt : j < j1 := by omega
      have := hleast1 j hjlt
      rw [← takes_eq_matches _ _ hshape] at this
      rw [this] at hjtakes
      exact Bool.false_ne_true hjtakes
    rw [hopt, hj1]
  · intro line' hall
    rw [findCategory_none_iff]
    intro c hc
    cases ht : categoryTakes c.patterns line' with
    | false => rfl
    | true =>
      have := categoryTakes_imp_any c.patterns line' ht
      have hm := hall c hc
      unfold catRuleMatches at hm
      rw [hm] at this
      exact absurd this Bool.false_ne_true

theorem c3_first_match_wins_witness :
    ((isFuncLine dualLine || isVarLine dualLine) = true ∧ 0 < 1 ∧ 1 < c3cats.length ∧
      catRuleMatches (c3cats.getD 0 dfltCat) dualLine = true ∧
      catRuleMatches (c3cats.getD 1 dfltCat) dualLine = true) ∧
    c3Conclusion c3cats dualLine 0 1 :=
  ⟨⟨by decide, by decide, by decide, by decide, by decide⟩,
    c3_first_match_wins c3cats dualLine 0 1 (by decide) (by decide) (by decide)
      (by decide) (by decide)⟩

/-- What the amended claim C4 asserts at an input whose suffix never
balances: the extractor returns all remaining lines with end index equal to
the input length, and a scan arriving at that cursor consumes everything to
end of input, appends the degraded unit to the matched category and
terminates the pass normally. -/
def c4Statement (lines : List String) (i : Nat) : Prop :=
  extract_function_with_body lines i = (lines.drop i, lines.length) ∧
  ∀ (catalog : List Category) (j fuel : Nat) (C : List (List String))
    (A : List Nat) (U : List ExtractedUnit),
    findCategory catalog (lines.getD i "") = some j →
    isFuncLine (lines.getD i "") = true →
    scanLoop catalog lines (fuel + 1) i C A U =
      (setContent C j (lines.drop i ++ ["\n"]),
       A ++ rangeFromTo i lines.length,
       U ++ [⟨j, i, lines.length, lines.drop i, true⟩])

/-- Claim C4 (amended): an extraction that reaches end of input with the
stopping condition never satisfied does not fail — it returns the whole
remaining suffix as a degraded unit ending at `lines.length`, and the
scanner proceeds as if extraction completed at end of input. -/
theorem c4_degraded_extraction (lines : List String) (i : Nat)
    (hi : i < lines.length)
    (hns : ∀ k < (lines.drop i).length, ¬ stopsAt (lines.drop i) k) :
    c4Statement lines i := by
  have hex : extract_function_with_body lines i = (lines.drop i, lines.length) := by
    rcases extract_char lines i with ⟨k, hk, hs, _, _⟩ | ⟨_, he⟩
    · exact absurd hs (hns k hk)
    · exact he
  refine ⟨hex, ?_⟩
  intro catalog j fuel C A U hfc hf
  have h1 : scanLoop catalog lines (fuel + 1) i C A U =
      scanLoop catalog lines fuel (extract_function_with_body lines i).2
        (setContent C j ((extract_function_with_body lines i).1 ++ ["\n"]))
        (A ++ rangeFromTo i (extract_function_with_body lines i).2)
        (U ++ [⟨j, i, (extract_function_with_body lines i).2,
          (extract_function_with_body lines i).1, true⟩]) := by
    simp only [scanLoop, hi, if_pos, hfc, hf, if_true]
  rw [h1, hex]
  exact scanLoop_exit catalog lines lines.length (by omega) fuel _ _ _

theorem c4_degraded_extraction_witness :
    (0 < c4linesA.length ∧ (∀ k < (c4linesA.drop 0).length, ¬ stopsAt (c4linesA.drop 0) k)) ∧
      c4Statement c4linesA 0 :=
  ⟨⟨by decide, by decide⟩, c4_degraded_extraction c4linesA 0 (by decide) (by decide)⟩

/-- Counterexample to claim C4's surfacing clause: the unbalanced run over
`c4linesA` (its single unit ends with nonzero accumulated depth) produces a
coverage report identical to the balanced run over `c4linesB` — nothing in
the report surfaces the UnbalancedDeclaration condition. -/
theorem c4_counterexample :
    mainReport c4cat c4linesA = mainReport c4cat c4linesB ∧
    blockDepth ((mainScan c4cat c4linesA).units.getD 0 ⟨0, 0, 0, [], false⟩).ulines ≠ 0 ∧
    blockDepth ((mainScan c4cat c4linesB).units.getD 0 ⟨0, 0, 0, [], false⟩).ulines = 0 ∧
    (mainScan c4cat c4linesA).assigned = [0, 1] := by decide

/-- What the amended claim C5 asserts: the scan's unit list, assigned set
and coverage are functions of the input alone, and the contents a category
ends with are the accumulator state at entry followed by the content of a
fresh run — so a second in-process invocation extends the first run's
accumulators instead of starting empty, while two fresh runs are
byte-identical. -/
def c5Statement (catalog : List Category) (lines : List String)
    (init : List (List String)) (j : Nat) : Prop :=
  (runScan catalog lines init).units = (mainScan catalog lines).units ∧
  (runScan catalog lines init).assigned = (mainScan catalog lines).assigned ∧
  (runScan catalog lines init).contents.getD j [] =
    init.getD j [] ++ (mainScan catalog lines).contents.getD j [] ∧
  mainCoverage lines (runScan catalog lines init).assigned =
    mainCoverage lines (mainScan catalog lines).assigned

/-- Claim C5 (amended): the scan is deterministic in (lines, catalog,
accumulator state); only the per-category contents depend on the entry
state of the accumulators, by appending the fresh run's content to it. -/
theorem c5_deterministic_scan (catalog : List Category) (lines : List String)
    (init : List (List String)) (j : Nat)
    (hlen : init.length = catalog.length) (hj : j < catalog.length) :
    c5Statement catalog lines init j := by
  have hu : (runScan catalog lines init).units = (mainScan catalog lines).units := by
    rw [runScan_units, mainScan_units]
  have ha : (runScan catalog lines init).assigned = (mainScan catalog lines).assigned := by
    rw [runScan_assigned, mainScan_assigned]
  refine ⟨hu, ha, ?_, ?_⟩
  · rw [runScan_contents_getD catalog lines init hlen j, mainScan_contents_getD]
  · rw [ha]

theorem c5_deterministic_scan_witness :
    (([["var OLD = 0\n"]] : List (List String)).length = c5cat.length ∧ 0 < c5cat.length) ∧
      c5Statement c5cat c5lines [["var OLD = 0\n"]] 0 :=
  ⟨⟨by decide, by decide⟩,
    c5_deterministic_scan c5cat c5lines [["var OLD = 0\n"]] 0 (by decide) (by decide)⟩

/-- Counterexample to claim C5 as stated: the `content` accumulators live in
the module-level `MODULES` dictionary, so a second invocation of the scan in
the same process starts from the first invocation's contents and produces a
different (doubled) per-category content list, not a byte-identical one. -/
theorem c5_counterexample :
    (runScan c5cat c5lines (runScan c5cat c5lines (freshContents c5cat)).contents).contents ≠
      (runScan c5cat c5lines (freshContents c5cat)).contents := by decide

/-- What the amended claim C1 asserts: the three partitions are pairwise
disjoint, and the total line count equals consumed plus header plus
unmatched plus the lines Pass 2 silently drops (blank unconsumed lines, and
comment-start or function-shaped unconsumed lines during the header
phase). -/
def c1Statement (catalog : List Category) (lines : List String) : Prop :=
  lines.length = consumedCount (mainScan catalog lines).assigned +
      (mainCoverage lines (mainScan catalog lines).assigned).1.length +
      (mainCoverage lines (mainScan catalog lines).assigned).2.length +
      List.countP (dropP (mainScan catalog lines).assigned) lines.enum ∧
  (∀ p ∈ (mainCoverage lines (mainScan catalog lines).assigned).1,
    p.1 ∉ (mainScan catalog lines).assigned) ∧
  (∀ q ∈ (mainCoverage lines (mainScan catalog lines).assigned).2,
    q.1 - 1 ∉ (mainScan catalog lines).assigned) ∧
  (∀ p ∈ (mainCoverage lines (mainScan catalog lines).assigned).1,
    ∀ q ∈ (mainCoverage lines (mainScan catalog lines).assigned).2, q.1 ≠ p.1 + 1)

/-- Claim C1 (amended): consumed, header and unmatched are pairwise
disjoint, but they are exhaustive only up to the silently dropped lines:
`total = consumed + header + unmatched + dropped`. -/
theorem c1_partition (catalog : List Category) (lines : List String) :
    c1Statement catalog lines := by
  have hcov := mainCoverage_char lines (mainScan catalog lines).assigned
  have hnd := mainScan_assigned_nodup catalog lines
  have hlt := mainScan_assigned_lt catalog lines
  have hhdr : (mainCoverage lines (mainScan catalog lines).assigned).1 =
      headerSpec lines (mainScan catalog lines).assigned := by rw [hcov]
  have hunm : (mainCoverage lines (mainScan catalog lines).assigned).2 =
      unmatchedSpec lines (mainScan catalog lines).assigned := by rw [hcov]
  refine ⟨?_, ?_, ?_, ?_⟩
  · have hcount := partitionCount (mainScan catalog lines).assigned lines.enum
    have h1 : List.countP (fun p => (mainScan catalog lines).assigned.contains p.1)
        lines.enum = (mainScan catalog lines).assigned.length := by
      rw [countP_enum_fst]
      exact countP_contains_range _ _ hnd hlt
    have h2 : consumedCount (mainScan catalog lines).assigned =
        (mainScan catalog lines).assigned.length := by
      unfold consumedCount
      rw [hnd.dedup]
    have h3 : (mainCoverage lines (mainScan catalog lines).assigned).1.length =
        List.countP (hdrP (mainScan catalog lines).assigned) lines.enum := by
      rw [hhdr]
      unfold headerSpec
      rw [List.countP_eq_length_filter]
    have h4 : (mainCoverage lines (mainScan catalog lines).assigned).2.length =
        List.countP (unmP (mainScan catalog lines).assigned) lines.enum := by
      rw [hunm]
      unfold unmatchedSpec
      rw [List.length_map, List.countP_eq_length_filter]
    have h0 : lines.enum.length = lines.length := List.enum_length
    rw [h2, h3, h4, ← h0, hcount, h1]
  · intro p hp
    rw [hhdr] at hp
    have hparts := hdrP_parts (List.of_mem_filter hp)
    intro hm
    have hcont : (mainScan catalog lines).assigned.contains p.1 = true :=
      List.elem_iff.mpr hm
    rw [hparts.1] at hcont
    exact absurd hcont (by decide)
  · intro q hq
    rw [hunm] at hq
    rcases List.mem_map.mp hq with ⟨p, hp, rfl⟩
    have hparts := unmP_parts (List.of_mem_filter hp)
    intro hm
    have hp1 : p.1 + 1 - 1 = p.1 := by omega
    rw [hp1] at hm
    have hcont : (mainScan catalog lines).assigned.contains p.1 = true :=
      List.elem_iff.mpr hm
    rw [hparts.1] at hcont
    exact absurd hcont (by decide)
  · intro p hp q hq
    rw [hhdr] at hp
    rw [hunm] at hq
    rcases List.mem_map.mp hq with ⟨p', hp', rfl⟩
    have hP := hdrP_parts (List.of_mem_filter hp)
    have hU := unmP_parts (List.of_mem_filter hp')
    intro heq
    have hpp : p'.1 = p.1 := by omega
    rw [hpp, hP.2.1] at hU
    exact absurd hU.2.1 (by decide)

theorem c1_partition_witness : c1Statement c9cat c9lines :=
  c1_partition c9cat c9lines

/-- Counterexample to claim C1 as stated: on the one-line input consisting
of a single blank line (empty catalog), nothing is consumed and both
partitions stay empty, so the three partition sizes sum to 0, not to the
total line count 1 — the partitions are not jointly exhaustive. -/
theorem c1_counterexample :
    ¬ ((["\n"] : List String).length =
        consumedCount (mainScan [] ["\n"]).assigned +
        (mainCoverage ["\n"] (mainScan [] ["\n"]).assigned).1.length +
        (mainCoverage ["\n"] (mainScan [] ["\n"]).assigned).2.length) := by decide

/-- Claim C6 (amended): the coverage walk is exactly the two filters — an
index is header iff it is unconsumed, precedes every consumed index, is not
function-signature shaped and its stripped text is nonempty and not
comment-start; header accumulation stops permanently only at the first
consumed index (a function-shaped line alone does not stop it); every later
unconsumed index with nonempty stripped text is unmatched, with its 1-based
line number and its line text. -/
theorem c6_coverage_walk (lines : List String) (assigned : List Nat) :
    mainCoverage lines assigned =
      (headerSpec lines assigned, unmatchedSpec lines assigned) :=
  mainCoverage_char lines assigned

/-- Counterexample to claim C6 as stated: after the unconsumed
function-shaped line 1 of `c6lines`, header accumulation has not stopped —
the following stray line is placed in header (at 0-based index 1), and the
unmatched partition stays empty, while the claim demands it be reported as
unmatched. -/
theorem c6_counterexample :
    (1, "stray\n") ∈ (mainCoverage c6lines []).1 ∧
      (mainCoverage c6lines []).2 = [] := by decide

/-- Claim C7 (amended): a declaration-shaped line matching no category is
not an error — no category receives a unit and nothing is consumed — but it
reaches the unmatched partition only after some consumed index; on the
two-line input `c7lines` with no matching rule, the function line lands in
neither partition and the closing-brace line lands in header. -/
theorem c7_no_matching_category (catalog : List Category)
    (h1 : findCategory catalog "function unknownThing_() \x7b\n" = none)
    (h2 : findCategory catalog "\x7d\n" = none) :
    (mainScan catalog c7lines).units = [] ∧
    (mainScan catalog c7lines).assigned = [] ∧
    mainCoverage c7lines (mainScan catalog c7lines).assigned =
      ([(1, "\x7d\n")], []) := by
  have hall : ∀ k < c7lines.length, findCategory catalog (c7lines.getD k "") = none := by
    intro k hk
    match k with
    | 0 =>
      have hg : c7lines.getD 0 "" = "function unknownThing_() \x7b\n" := rfl
      rw [hg]
      exact h1
    | 1 =>
      have hg : c7lines.getD 1 "" = "\x7d\n" := rfl
      rw [hg]
      exact h2
    | k + 2 =>
      have hlen2 : c7lines.length = 2 := rfl
      rw [hlen2] at hk
      exact absurd hk (by omega)
  have htr : scanTrace catalog c7lines c7lines.length 0 = [] :=
    scanTrace_all_none catalog c7lines hall c7lines.length 0
  have hu : (mainScan catalog c7lines).units = [] := by
    rw [mainScan_units, htr]
  have ha : (mainScan catalog c7lines).assigned = [] := by
    rw [mainScan_assigned, htr]
    rfl
  refine ⟨hu, ha, ?_⟩
  rw [ha]
  decide

theorem c7_no_matching_category_witness :
    (findCategory c7cat "function unknownThing_() \x7b\n" = none ∧
      findCategory c7cat "\x7d\n" = none) ∧
    ((mainScan c7cat c7lines).units = [] ∧
      (mainScan c7cat c7lines).assigned = [] ∧
      mainCoverage c7lines (mainScan c7cat c7lines).assigned =
        ([(1, "\x7d\n")], [])) :=
  ⟨⟨by decide, by decide⟩, c7_no_matching_category c7cat (by decide) (by decide)⟩

/-- Counterexample to claim C7 as stated: with no rule matching, no category
receives a unit, but the two lines do not land in unmatched — the unmatched
partition is empty and the closing-brace line is placed in header instead. -/
theorem c7_counterexample :
    (mainScan c7cat c7lines).units = [] ∧
    (mainCoverage c7lines (mainScan c7cat c7lines).assigned).2 = [] ∧
    (mainCoverage c7lines (mainScan c7cat c7lines).assigned).1 =
      [(1, "\x7d\n")] := by decide

/-- What claim C8 asserts of a scan: the assigned set is exactly the union
of the units' half-open index ranges, and the ranges of distinct units are
disjoint — every consumed index belongs to exactly one unit. -/
def c8Statement (catalog : List Category) (lines : List String) : Prop :=
  (mainScan catalog lines).assigned =
    ((mainScan catalog lines).units).flatMap unitRange ∧
  ∀ u1 ∈ (mainScan catalog lines).units, ∀ u2 ∈ (mainScan catalog lines).units,
    u1 ≠ u2 → ∀ k ∈ unitRange u1, k ∉ unitRange u2

/-- Claim C8: each consumed index belongs to exactly one extracted unit;
the units' ranges are pairwise disjoint because the scanner resumes at each
unit's end index. -/
theorem c8_units_disjoint (catalog : List Category) (lines : List String) :
    c8Statement catalog lines := by
  constructor
  · rw [mainScan_assigned, mainScan_units]
  · rw [mainScan_units]
    exact fun u1 h1 u2 h2 hne k hk =>
      chained_disjoint (scanTrace_spec catalog lines lines.length 0).1 u1 h1 u2 h2 hne k hk

theorem c8_units_disjoint_witness :
    c8Statement c8cat c8lines ∧
      (0 ∈ unitRange ⟨0, 0, 1, ["var A = 1\n"], false⟩ ∧
        0 ∉ unitRange ⟨1, 1, 2, ["var B = 2\n"], false⟩) :=
  ⟨c8_units_disjoint c8cat c8lines,
    by decide,
    (c8_units_disjoint c8cat c8lines).2
      ⟨0, 0, 1, ["var A = 1\n"], false⟩ (by decide)
      ⟨1, 1, 2, ["var B = 2\n"], false⟩ (by decide)
      (by decide) 0 (by decide)⟩

/-- What claim C9 asserts of a category's emitted content: it is the
concatenation, in scan order, of each of its units' lines followed by one
separator newline when the unit is function-shaped (and nothing extra for a
`var` capture). -/
def c9Statement (catalog : List Category) (lines : List String) (j : Nat) : Prop :=
  (mainScan catalog lines).contents.getD j [] =
    emission j ((mainScan catalog lines).units)

/-- Claim C9: category content interleaves one blank separator line after
each function-shaped unit and nothing after a `var` capture, so it is not in
general the exact concatenation of the units' lines (witnessed concretely on
`c9lines`, where the emitted content carries a trailing separator). -/
theorem c9_content_interleaving (catalog : List Category) (lines : List String)
    (j : Nat) (hj : j < catalog.length) :
    c9Statement catalog lines j ∧
      (mainScan c9cat c9lines).contents.getD 0 [] ≠
        ((mainScan c9cat c9lines).units).flatMap ExtractedUnit.ulines := by
  constructor
  · unfold c9Statement
    rw [mainScan_contents_getD, mainScan_units]
  · decide

theorem c9_content_interleaving_witness :
    0 < c9cat.length ∧
      (c9Statement c9cat c9lines 0 ∧
        (mainScan c9cat c9lines).contents.getD 0 [] ≠
          ((mainScan c9cat c9lines).units).flatMap ExtractedUnit.ulines) :=
  ⟨by decide, c9_content_interleaving c9cat c9lines 0 (by decide)⟩

/-- What claim C10 asserts of Pass 2: every header or unmatched entry has
nonempty stripped text (so blank unconsumed lines appear in neither
partition), and an unconsumed line in the header phase that is
comment-start or function-shaped is reported in neither partition. -/
def c10Statement (lines : List String) (assigned : List Nat) : Prop :=
  (∀ p ∈ (mainCoverage lines assigned).1, stripNonempty p.2 = true) ∧
  (∀ q ∈ (mainCoverage lines assigned).2, stripNonempty q.2 = true) ∧
  (∀ k, assigned.contains k = false → noAssignedBefore assigned k = true →
    (chStarts (stripChars (lines.getD k "")) "/*" = true ∨
      chStarts (stripChars (lines.getD k "")) "*" = true ∨
      isFuncLine (lines.getD k "") = true) →
    (∀ p ∈ (mainCoverage lines assigned).1, p.1 ≠ k) ∧
    (∀ q ∈ (mainCoverage lines assigned).2, q.1 ≠ k + 1))

/-- Claim C10: blank unconsumed lines never reach either partition, and
while the header phase is active a comment-start or function-signature line
is silently dropped from both partitions. -/
theorem c10_silent_drops (lines : List String) (assigned : List Nat) :
    c10Statement lines assigned := by
  have hcov := mainCoverage_char lines assigned
  have hhdr : (mainCoverage lines assigned).1 = headerSpec lines assigned := by rw [hcov]
  have hunm : (mainCoverage lines assigned).2 = unmatchedSpec lines assigned := by rw [hcov]
  refine ⟨?_, ?_, ?_⟩
  · intro p hp
    rw [hhdr] at hp
    exact headerKeep_nonempty (hdrP_parts (List.of_mem_filter hp)).2.2.2
  · intro q hq
    rw [hunm] at hq
    rcases List.mem_map.mp hq with ⟨p, hp, rfl⟩
    exact (unmP_parts (List.of_mem_filter hp)).2.2
  · intro k _ hna hshape
    constructor
    · intro p hp heq
      rw [hhdr] at hp
      have hparts := hdrP_parts (List.of_mem_filter hp)
      have hsnd : p.2 = lines.getD p.1 "" :=
        enum_snd_getD lines p (List.mem_filter.mp hp).1
      rw [heq] at hsnd
      rcases hshape with hc | hc | hc
      · have hkeep := hparts.2.2.2
        unfold headerKeep at hkeep
        rw [hsnd, hc] at hkeep
        simp at hkeep
      · have hkeep := hparts.2.2.2
        unfold headerKeep at hkeep
        rw [hsnd, hc] at hkeep
        simp at hkeep
      · have hfun := hparts.2.2.1
        rw [hsnd, hc] at hfun
        exact absurd hfun (by decide)
    · intro q hq heq
      rw [hunm] at hq
      rcases List.mem_map.mp hq with ⟨p, hp, rfl⟩
      have hparts := unmP_parts (List.of_mem_filter hp)
      have hpk : p.1 = k := by omega
      rw [hpk, hna] at hparts
      exact absurd hparts.2.1 (by decide)

theorem c10_silent_drops_witness :
    (∀ p ∈ (mainCoverage c10lines []).1, p.1 ≠ 0) ∧
      (∀ q ∈ (mainCoverage c10lines []).2, q.1 ≠ 1) :=
  (c10_silent_drops c10lines []).2.2 0 (by decide) (by decide) (Or.inl (by decide))

end SplitGas
